import Mathlib

/-!
Verification development for the v380-4g-stream repository.

Bytes are modelled as `Nat` values (< 256 for real byte strings); byte
strings as `List Nat`.  AES-ECB single-block encryption/decryption under a
fixed key is modelled as an abstract block function `List Nat → List Nat`
(the modelled code never inspects the block-cipher internals, it only
applies the PyCryptodome cipher object to 16-byte blocks).

Sources embedded:
  * `src/v380_4g/crypto.py`  : `generate_aes_key`, `encrypt_password`,
    `decrypt_64_80`, `decrypt_audio`
  * `src/v380_4g/stream.py`  : `StreamRecorder._process_stream_data`,
    `StreamRecorder._decrypt_frame`
  * `src/v380_4g/rtsp_server.py` : `RTPPacketizer.packetize_nal`,
    `RTPPacketizer._make_rtp_packet`
-/

namespace V380

/-- `data[i]` for a byte string; the modelled code only reads in-bounds
indices, out-of-bounds defaults to 0. -/
def byte (data : List Nat) (i : Nat) : Nat := data.getD i 0

/-- `struct.unpack('<H', data[i:i+2])`. -/
def u16le (data : List Nat) (i : Nat) : Nat := byte data i + 256 * byte data (i + 1)

/-- Python slice `data[i:j]`. -/
def slice (data : List Nat) (i j : Nat) : List Nat := (data.take j).drop i

/-- `struct.pack('<I', n)`. -/
def le32 (n : Nat) : List Nat := [n % 256, n / 256 % 256, n / 65536 % 256, n / 16777216 % 256]

/-- `struct.pack('<Q', n)`. -/
def le64 (n : Nat) : List Nat := le32 (n % 4294967296) ++ le32 (n / 4294967296)

/-- Python slice assignment `l[i:i+len(xs)] = xs` (equal-length case). -/
def setSlice (l : List Nat) (i : Nat) (xs : List Nat) : List Nat :=
  l.take i ++ xs ++ l.drop (i + xs.length)

/-- `crypto.MAGIC_1`. -/
def MAGIC_1 : Nat := 0x618123462C14795C

/-- `crypto.MAGIC_2`. -/
def MAGIC_2 : Nat := 0x82800DF0

/-- `crypto.generate_aes_key`: pack the handle as a little-endian u32,
left-justify to 16 zero bytes, then overwrite bytes 4..12 with `MAGIC_1`
(little-endian u64) and bytes 12..16 with `MAGIC_2` (little-endian u32). -/
def generate_aes_key (handle : Nat) : List Nat :=
  setSlice (setSlice (le32 handle ++ List.replicate 12 0) 4 (le64 MAGIC_1)) 12 (le32 MAGIC_2)

/-- C2: for every 32-bit handle the derived AES key is exactly 16 bytes:
bytes 0..4 are the handle as a little-endian u32, bytes 4..12 are
`5C 79 14 2C 46 23 81 61` (MAGIC_1 as little-endian u64) and bytes 12..16
are `F0 0D 80 82` (MAGIC_2 as little-endian u32).  `generate_aes_key` is a
pure function, so equal handles give equal keys. -/
theorem generate_aes_key_spec (h : Nat) (hh : h < 4294967296) :
    (generate_aes_key h).length = 16 ∧
    (generate_aes_key h).take 4 = le32 h ∧
    slice (generate_aes_key h) 4 12 = [0x5C, 0x79, 0x14, 0x2C, 0x46, 0x23, 0x81, 0x61] ∧
    (generate_aes_key h).drop 12 = [0xF0, 0x0D, 0x80, 0x82] := by
  refine ⟨?_, ?_, ?_, ?_⟩ <;>
    norm_num [generate_aes_key, setSlice, le32, le64, slice, MAGIC_1, MAGIC_2]

/-- Witness for C2 at the concrete handle 222. -/
theorem generate_aes_key_spec_witness :
    (222 : Nat) < 4294967296 ∧
    ((generate_aes_key 222).length = 16 ∧
      (generate_aes_key 222).take 4 = le32 222 ∧
      slice (generate_aes_key 222) 4 12 = [0x5C, 0x79, 0x14, 0x2C, 0x46, 0x23, 0x81, 0x61] ∧
      (generate_aes_key 222).drop 12 = [0xF0, 0x0D, 0x80, 0x82]) :=
  ⟨by decide, generate_aes_key_spec 222 (by decide)⟩

/-- `crypto.decrypt_64_80`: while at least 64 bytes remain, decrypt four
16-byte AES blocks in place, then copy up to 16 raw bytes; a final chunk of
fewer than 64 bytes passes through unchanged.  `dec` is the AES-ECB
single-block decryption (PyCryptodome `cipher.decrypt` on one block). -/
def decrypt_64_80 (dec : List Nat → List Nat) (data : List Nat) : List Nat :=
  if 64 ≤ data.length then
    dec ((data.drop 0).take 16) ++ dec ((data.drop 16).take 16) ++
      dec ((data.drop 32).take 16) ++ dec ((data.drop 48).take 16) ++
      (data.drop 64).take 16 ++ decrypt_64_80 dec (data.drop 80)
  else data
termination_by data.length
decreasing_by simp; omega

/-- `crypto.decrypt_audio`: decrypt every complete 16-byte block, pass the
trailing `len % 16` bytes through unchanged. -/
def decrypt_audio (dec : List Nat → List Nat) : List Nat → List Nat
  | b0 :: b1 :: b2 :: b3 :: b4 :: b5 :: b6 :: b7 ::
      b8 :: b9 :: b10 :: b11 :: b12 :: b13 :: b14 :: b15 :: rest =>
      dec [b0, b1, b2, b3, b4, b5, b6, b7, b8, b9, b10, b11, b12, b13, b14, b15] ++
        decrypt_audio dec rest
  | rest => rest

/-- PyCryptodome `cipher.encrypt` / `cipher.decrypt` applied to a whole
buffer: ECB processes consecutive 16-byte blocks with the block function
`f`.  (The library raises on a buffer that is not a multiple of 16 bytes;
the modelled call sites only pass multiples, so the trailing case is
irrelevant and passes through.) -/
def aesEcb (f : List Nat → List Nat) (data : List Nat) : List Nat :=
  if h : data = [] then [] else f (data.take 16) ++ aesEcb f (data.drop 16)
termination_by data.length
decreasing_by
  have hpos : 0 < data.length := List.length_pos.mpr h
  simp
  omega

theorem aesEcb_nil (f : List Nat → List Nat) : aesEcb f [] = [] := by
  rw [aesEcb.eq_def]; simp

theorem aesEcb_cons (f : List Nat → List Nat) (data : List Nat) (h : data ≠ []) :
    aesEcb f data = f (data.take 16) ++ aesEcb f (data.drop 16) := by
  rw [aesEcb.eq_def]; simp [h]

theorem decrypt_64_80_low (dec : List Nat → List Nat) (data : List Nat)
    (h : data.length < 64) : decrypt_64_80 dec data = data := by
  rw [decrypt_64_80.eq_def]
  simp [Nat.not_le.mpr h]

theorem decrypt_64_80_high (dec : List Nat → List Nat) (data : List Nat)
    (h : 64 ≤ data.length) :
    decrypt_64_80 dec data =
      dec (data.take 16) ++ dec ((data.drop 16).take 16) ++
        dec ((data.drop 32).take 16) ++ dec ((data.drop 48).take 16) ++
        (data.drop 64).take 16 ++ decrypt_64_80 dec (data.drop 80) := by
  rw [decrypt_64_80.eq_def]
  simp [h]

theorem decrypt_64_80_length (dec : List Nat → List Nat)
    (hdec : ∀ b : List Nat, b.length = 16 → (dec b).length = 16) :
    ∀ data : List Nat, (decrypt_64_80 dec data).length = data.length := by
  intro data
  induction data using decrypt_64_80.induct dec with
  | case1 data h ih =>
      rw [decrypt_64_80_high dec data h]
      have h0 := hdec (data.take 16) (by simp; omega)
      have h1 := hdec ((data.drop 16).take 16) (by simp; omega)
      have h2 := hdec ((data.drop 32).take 16) (by simp; omega)
      have h3 := hdec ((data.drop 48).take 16) (by simp; omega)
      simp [h0, h1, h2, h3, ih]
      omega
  | case2 data h =>
      rw [decrypt_64_80_low dec data (by omega)]

theorem decrypt_audio_length (dec : List Nat → List Nat)
    (hdec : ∀ b : List Nat, b.length = 16 → (dec b).length = 16) :
    ∀ data : List Nat, (decrypt_audio dec data).length = data.length := by
  intro data
  induction data using decrypt_audio.induct dec with
  | case1 b0 b1 b2 b3 b4 b5 b6 b7 b8 b9 b10 b11 b12 b13 b14 b15 rest ih =>
      have h16 := hdec [b0, b1, b2, b3, b4, b5, b6, b7, b8, b9, b10, b11, b12, b13, b14, b15]
        (by simp)
      simp [decrypt_audio, ih, h16]
      omega
  | case2 rest h => simp [decrypt_audio]

theorem drop_append_len {l1 l2 : List Nat} {n : Nat} (m : Nat) (h : l1.length = n) :
    (l1 ++ l2).drop (n + m) = l2.drop m := by
  subst h; exact List.drop_append m

/-- ECB decryption of one 64-byte prefix is the concatenation of the four
block decryptions. -/
theorem aesEcb_take64 (f : List Nat → List Nat) (data : List Nat) (h : 64 ≤ data.length) :
    aesEcb f (data.take 64) =
      f (data.take 16) ++ f ((data.drop 16).take 16) ++
        f ((data.drop 32).take 16) ++ f ((data.drop 48).take 16) := by
  have e1 : data.take 64 ≠ [] := by simp [← List.length_pos]; omega
  rw [aesEcb_cons f _ e1, List.take_take, List.drop_take]
  norm_num
  have e2 : (data.drop 16).take 48 ≠ [] := by simp [← List.length_pos]; omega
  rw [aesEcb_cons f _ e2, List.take_take, List.drop_take, List.drop_drop]
  norm_num
  have e3 : (data.drop 32).take 32 ≠ [] := by simp [← List.length_pos]; omega
  rw [aesEcb_cons f _ e3, List.take_take, List.drop_take, List.drop_drop]
  norm_num
  have e4 : (data.drop 48).take 16 ≠ [] := by simp [← List.length_pos]; omega
  rw [aesEcb_cons f _ e4, List.take_take, List.drop_take, List.drop_drop]
  norm_num
  exact aesEcb_nil f

/-- Window-indexed characterisation of `decrypt_64_80` on buffers that
divide into whole 80-byte windows. -/
theorem decrypt_64_80_window (dec : List Nat → List Nat)
    (hdec : ∀ b : List Nat, b.length = 16 → (dec b).length = 16) :
    ∀ (i : Nat) (data : List Nat), data.length % 80 = 0 → 80 * i + 80 ≤ data.length →
      ((decrypt_64_80 dec data).drop (80 * i)).take 64 =
        aesEcb dec ((data.drop (80 * i)).take 64) ∧
      ((decrypt_64_80 dec data).drop (80 * i + 64)).take 16 =
        (data.drop (80 * i + 64)).take 16 := by
  intro i
  induction i with
  | zero =>
      intro data h80 hlen
      simp only [Nat.mul_zero, Nat.zero_add, List.drop_zero] at hlen ⊢
      rw [decrypt_64_80_high dec data (by omega)]
      have h0 := hdec (data.take 16) (by simp; omega)
      have h1 := hdec ((data.drop 16).take 16) (by simp; omega)
      have h2 := hdec ((data.drop 32).take 16) (by simp; omega)
      have h3 := hdec ((data.drop 48).take 16) (by simp; omega)
      have hX : (dec (data.take 16) ++ dec ((data.drop 16).take 16) ++
          dec ((data.drop 32).take 16) ++ dec ((data.drop 48).take 16)).length = 64 := by
        simp [h0, h1, h2, h3]
      have hT : ((data.drop 64).take 16).length = 16 := by simp; omega
      have hshape : dec (data.take 16) ++ dec ((data.drop 16).take 16) ++
            dec ((data.drop 32).take 16) ++ dec ((data.drop 48).take 16) ++
            (data.drop 64).take 16 ++ decrypt_64_80 dec (data.drop 80) =
          (dec (data.take 16) ++ dec ((data.drop 16).take 16) ++
            dec ((data.drop 32).take 16) ++ dec ((data.drop 48).take 16)) ++
            ((data.drop 64).take 16 ++ decrypt_64_80 dec (data.drop 80)) := by
        simp [List.append_assoc]
      constructor
      · rw [hshape, List.take_left' hX, aesEcb_take64 dec data (by omega)]
      · rw [hshape, List.drop_left' hX, List.take_left' hT]
  | succ i ih =>
      intro data h80 hlen
      have hmul : 80 * (i + 1) = 80 * i + 80 := by ring
      rw [decrypt_64_80_high dec data (by omega)]
      have h0 := hdec (data.take 16) (by simp; omega)
      have h1 := hdec ((data.drop 16).take 16) (by simp; omega)
      have h2 := hdec ((data.drop 32).take 16) (by simp; omega)
      have h3 := hdec ((data.drop 48).take 16) (by simp; omega)
      have hY : (dec (data.take 16) ++ dec ((data.drop 16).take 16) ++
          dec ((data.drop 32).take 16) ++ dec ((data.drop 48).take 16) ++
          (data.drop 64).take 16).length = 80 := by
        simp [h0, h1, h2, h3]; omega
      have ihd := ih (data.drop 80) (by simp; omega) (by simp; omega)
      constructor
      · rw [show (80 : Nat) * (i + 1) = 80 + 80 * i by ring]
        rw [drop_append_len (80 * i) hY]
        rw [← List.drop_drop]
        exact ihd.1
      · rw [show (80 : Nat) * (i + 1) + 64 = 80 + (80 * i + 64) by ring]
        rw [drop_append_len (80 * i + 64) hY]
        conv_rhs => rw [← List.drop_drop]
        exact ihd.2

/-- C4: `decrypt_64_80` processes the buffer in 80-byte windows.  A final
chunk of fewer than 64 bytes is copied through unchanged; with at least 64
bytes remaining, the first 64 bytes are replaced by their AES-ECB
decryption as four 16-byte blocks, the following up-to-16 bytes are copied
through, and the rest is processed recursively.  In particular, on a
buffer that divides into whole 80-byte windows, bytes 0..64 of each output
window are the ECB decryption of the input window's bytes 0..64 and bytes
64..80 are copied verbatim. -/
theorem decrypt_64_80_pattern (dec : List Nat → List Nat) (data : List Nat)
    (hdec : ∀ b : List Nat, b.length = 16 → (dec b).length = 16) :
    (data.length < 64 → decrypt_64_80 dec data = data) ∧
    (64 ≤ data.length → decrypt_64_80 dec data =
      dec (data.take 16) ++ dec ((data.drop 16).take 16) ++
        dec ((data.drop 32).take 16) ++ dec ((data.drop 48).take 16) ++
        (data.drop 64).take 16 ++ decrypt_64_80 dec (data.drop 80)) ∧
    (data.length % 80 = 0 → ∀ i, 80 * i + 80 ≤ data.length →
      ((decrypt_64_80 dec data).drop (80 * i)).take 64 =
        aesEcb dec ((data.drop (80 * i)).take 64) ∧
      ((decrypt_64_80 dec data).drop (80 * i + 64)).take 16 =
        (data.drop (80 * i + 64)).take 16) :=
  ⟨decrypt_64_80_low dec data, decrypt_64_80_high dec data,
    fun h80 i hi => decrypt_64_80_window dec hdec i data h80 hi⟩

/-- Witness for C4: the pass-through branch evaluated on a 3-byte buffer
with the identity block function. -/
theorem decrypt_64_80_pattern_witness :
    (∀ b : List Nat, b.length = 16 → ((fun l => l) b).length = 16) ∧
    ([5, 6, 7] : List Nat).length < 64 ∧
    decrypt_64_80 (fun l => l) [5, 6, 7] = [5, 6, 7] :=
  ⟨fun _ h => h, by decide,
    (decrypt_64_80_pattern (fun l => l) [5, 6, 7] (fun _ h => h)).1 (by decide)⟩

/-- C9: both decryption routines preserve the byte length of their input,
assuming the block cipher maps 16-byte blocks to 16-byte blocks (true of
AES-ECB). -/
theorem decrypt_routines_length_preserving (dec : List Nat → List Nat) (data : List Nat)
    (hdec : ∀ b : List Nat, b.length = 16 → (dec b).length = 16) :
    (decrypt_64_80 dec data).length = data.length ∧
    (decrypt_audio dec data).length = data.length :=
  ⟨decrypt_64_80_length dec hdec data, decrypt_audio_length dec hdec data⟩

/-- Witness for C9 with the identity block function on a concrete buffer. -/
theorem decrypt_routines_length_preserving_witness :
    (∀ b : List Nat, b.length = 16 → ((fun l => l) b).length = 16) ∧
    (decrypt_64_80 (fun l => l) [1, 2, 3]).length = ([1, 2, 3] : List Nat).length ∧
    (decrypt_audio (fun l => l) [1, 2, 3]).length = ([1, 2, 3] : List Nat).length :=
  ⟨fun _ h => h,
    (decrypt_routines_length_preserving (fun l => l) [1, 2, 3] (fun _ h => h)).1,
    (decrypt_routines_length_preserving (fun l => l) [1, 2, 3] (fun _ h => h)).2⟩

/-- `Crypto.Util.Padding.pad(data, 16)`: PKCS#7 padding. -/
def pkcs7pad (data : List Nat) : List Nat :=
  data ++ List.replicate (16 - data.length % 16) (16 - data.length % 16)

/-- PKCS#7 unpadding (strict): read the last byte `n`, require `1 ≤ n ≤ 16`,
that `n` bytes exist, and that the last `n` bytes all equal `n`; strip them. -/
def pkcs7unpad (data : List Nat) : Option (List Nat) :=
  data.getLast?.bind (fun n =>
    if 1 ≤ n ∧ n ≤ 16 ∧ n ≤ data.length ∧ ∀ x ∈ data.drop (data.length - n), x = n
    then some (data.take (data.length - n)) else none)

theorem pkcs7unpad_pad (x : List Nat) : pkcs7unpad (pkcs7pad x) = some x := by
  have hp1 : 1 ≤ 16 - x.length % 16 := by omega
  have hp16 : 16 - x.length % 16 ≤ 16 := by omega
  obtain ⟨q, hq⟩ : ∃ q, 16 - x.length % 16 = q + 1 := ⟨16 - x.length % 16 - 1, by omega⟩
  have hlast : (pkcs7pad x).getLast? = some (16 - x.length % 16) := by
    unfold pkcs7pad
    rw [List.getLast?_append, hq, List.replicate_succ', List.getLast?_concat]
    simp
  have hlenx : (pkcs7pad x).length - (16 - x.length % 16) = x.length := by
    unfold pkcs7pad; simp
  unfold pkcs7unpad
  rw [hlast, Option.some_bind, hlenx]
  have hdrop : (pkcs7pad x).drop x.length =
      List.replicate (16 - x.length % 16) (16 - x.length % 16) := by
    unfold pkcs7pad
    exact List.drop_left x _
  have htake : (pkcs7pad x).take x.length = x := by
    unfold pkcs7pad
    exact List.take_left x _
  rw [if_pos]
  · rw [htake]
  · refine ⟨hp1, hp16, ?_, ?_⟩
    · unfold pkcs7pad; simp
    · rw [hdrop]; intro y hy; exact List.eq_of_mem_replicate hy

theorem pkcs7pad_valid (x : List Nat) (hx : ∀ y ∈ x, y < 256) :
    (pkcs7pad x).length % 16 = 0 ∧ ∀ y ∈ pkcs7pad x, y < 256 := by
  constructor
  · unfold pkcs7pad; simp; omega
  · intro y hy
    unfold pkcs7pad at hy
    rcases List.mem_append.mp hy with h | h
    · exact hx y h
    · have := List.eq_of_mem_replicate h; omega

/-- ECB with blockwise-inverse block functions is inverted blockwise. -/
theorem aesEcb_inv (enc dec : List Nat → List Nat)
    (hinv : ∀ b : List Nat, b.length = 16 → (∀ x ∈ b, x < 256) → dec (enc b) = b)
    (hgood : ∀ b : List Nat, b.length = 16 → (∀ x ∈ b, x < 256) →
      (enc b).length = 16 ∧ ∀ x ∈ enc b, x < 256) :
    ∀ data : List Nat, data.length % 16 = 0 → (∀ x ∈ data, x < 256) →
      aesEcb dec (aesEcb enc data) = data := by
  intro data
  induction data using aesEcb.induct enc with
  | case1 =>
      intro _ _; rw [aesEcb_nil, aesEcb_nil]
  | case2 data hnil ih =>
      intro hlen hbytes
      have hge : 16 ≤ data.length := by
        have := List.length_pos.mpr hnil; omega
      have ht16 : (data.take 16).length = 16 := by simp; omega
      have htb : ∀ x ∈ data.take 16, x < 256 := fun x hx => hbytes x (List.mem_of_mem_take hx)
      have hgb := hgood (data.take 16) ht16 htb
      rw [aesEcb_cons enc data hnil]
      have hnil2 : enc (data.take 16) ++ aesEcb enc (data.drop 16) ≠ [] := by
        have henc : enc (data.take 16) ≠ [] := by
          intro hcon; rw [hcon] at hgb; simp at hgb
        simp [henc]
      rw [aesEcb_cons dec _ hnil2]
      rw [List.take_append_of_le_length (by omega), List.drop_left' hgb.1]
      have : (enc (data.take 16)).take 16 = enc (data.take 16) := by
        apply List.take_of_length_le; omega
      rw [this, hinv (data.take 16) ht16 htb]
      rw [ih (by rw [List.length_drop]; omega)
        (fun x hx => hbytes x (List.mem_of_mem_drop hx))]
      exact List.take_append_drop 16 data

/-- ECB with a block function mapping byte blocks to byte blocks maps byte
buffers (of block-multiple length) to byte buffers of the same length. -/
theorem aesEcb_valid (enc : List Nat → List Nat)
    (hgood : ∀ b : List Nat, b.length = 16 → (∀ x ∈ b, x < 256) →
      (enc b).length = 16 ∧ ∀ x ∈ enc b, x < 256) :
    ∀ data : List Nat, data.length % 16 = 0 → (∀ x ∈ data, x < 256) →
      (aesEcb enc data).length = data.length ∧ ∀ x ∈ aesEcb enc data, x < 256 := by
  intro data
  induction data using aesEcb.induct enc with
  | case1 => intro _ _; rw [aesEcb_nil]; simp
  | case2 data hnil ih =>
      intro hlen hbytes
      have hge : 16 ≤ data.length := by
        have := List.length_pos.mpr hnil; omega
      have ht16 : (data.take 16).length = 16 := by simp; omega
      have htb : ∀ x ∈ data.take 16, x < 256 := fun x hx => hbytes x (List.mem_of_mem_take hx)
      have hgb := hgood (data.take 16) ht16 htb
      have ihd := ih (by rw [List.length_drop]; omega)
        (fun x hx => hbytes x (List.mem_of_mem_drop hx))
      rw [aesEcb_cons enc data hnil]
      constructor
      · simp [hgb.1, ihd.1]; omega
      · intro x hx
        rcases List.mem_append.mp hx with h | h
        · exact hgb.2 x h
        · exact ihd.2 x h

/-- The base64 alphabet `A-Z a-z 0-9 + /` as ASCII codes. -/
def b64alphabet : List Nat :=
  [65, 66, 67, 68, 69, 70, 71, 72, 73, 74, 75, 76, 77, 78, 79, 80, 81, 82,
   83, 84, 85, 86, 87, 88, 89, 90, 97, 98, 99, 100, 101, 102, 103, 104,
   105, 106, 107, 108, 109, 110, 111, 112, 113, 114, 115, 116, 117, 118,
   119, 120, 121, 122, 48, 49, 50, 51, 52, 53, 54, 55, 56, 57, 43, 47]

def b64char (n : Nat) : Nat := b64alphabet.getD n 0

def b64index (c : Nat) : Nat := b64alphabet.indexOf c

/-- `base64.b64encode` (61 is the ASCII code of padding character). -/
def b64encode : List Nat → List Nat
  | a :: b :: c :: rest =>
      b64char (a / 4) :: b64char (a % 4 * 16 + b / 16) ::
        b64char (b % 16 * 4 + c / 64) :: b64char (c % 64) :: b64encode rest
  | [a, b] => [b64char (a / 4), b64char (a % 4 * 16 + b / 16), b64char (b % 16 * 4), 61]
  | [a] => [b64char (a / 4), b64char (a % 4 * 16), 61, 61]
  | [] => []

/-- `base64.b64decode` on well-formed input. -/
def b64decode : List Nat → List Nat
  | c1 :: c2 :: c3 :: c4 :: rest =>
      if c3 = 61 then [b64index c1 * 4 + b64index c2 / 16]
      else if c4 = 61 then
        [b64index c1 * 4 + b64index c2 / 16, b64index c2 % 16 * 16 + b64index c3 / 4]
      else
        (b64index c1 * 4 + b64index c2 / 16) :: (b64index c2 % 16 * 16 + b64index c3 / 4) ::
          (b64index c3 % 4 * 64 + b64index c4) :: b64decode rest
  | _ => []

theorem b64index_b64char : ∀ s : Fin 64, b64index (b64char s.val) = s.val := by decide

theorem b64char_ne_61 : ∀ s : Fin 64, b64char s.val ≠ 61 := by decide

theorem b64index_b64char_nat (s : Nat) (hs : s < 64) : b64index (b64char s) = s :=
  b64index_b64char ⟨s, hs⟩

theorem b64char_ne_61_nat (s : Nat) (hs : s < 64) : b64char s ≠ 61 :=
  b64char_ne_61 ⟨s, hs⟩

theorem b64_roundtrip : ∀ l : List Nat, (∀ x ∈ l, x < 256) → b64decode (b64encode l) = l := by
  intro l
  induction l using b64encode.induct with
  | case1 a b c rest ih =>
      intro hx
      have ha : a < 256 := hx a (by simp)
      have hb : b < 256 := hx b (by simp)
      have hc : c < 256 := hx c (by simp)
      have s1 : a / 4 < 64 := by omega
      have s2 : a % 4 * 16 + b / 16 < 64 := by omega
      have s3 : b % 16 * 4 + c / 64 < 64 := by omega
      have s4 : c % 64 < 64 := by omega
      have h3 : b64char (b % 16 * 4 + c / 64) ≠ 61 := b64char_ne_61_nat _ s3
      have h4 : b64char (c % 64) ≠ 61 := b64char_ne_61_nat _ s4
      simp only [b64encode, b64decode, if_neg h3, if_neg h4]
      rw [b64index_b64char_nat _ s1, b64index_b64char_nat _ s2,
        b64index_b64char_nat _ s3, b64index_b64char_nat _ s4]
      rw [ih (fun x hx2 => hx x (by simp [hx2]))]
      congr 1
      · omega
      congr 1
      · omega
      congr 1
      omega
  | case2 a b =>
      intro hx
      have ha : a < 256 := hx a (by simp)
      have hb : b < 256 := hx b (by simp)
      have s1 : a / 4 < 64 := by omega
      have s2 : a % 4 * 16 + b / 16 < 64 := by omega
      have s3 : b % 16 * 4 < 64 := by omega
      have h3 : b64char (b % 16 * 4) ≠ 61 := b64char_ne_61_nat _ s3
      simp only [b64encode, b64decode, if_neg h3, if_true]
      rw [b64index_b64char_nat _ s1, b64index_b64char_nat _ s2, b64index_b64char_nat _ s3]
      simp only [List.cons.injEq, and_true]
      exact ⟨by omega, by omega⟩
  | case3 a =>
      intro hx
      have ha : a < 256 := hx a (by simp)
      have s1 : a / 4 < 64 := by omega
      have s2 : a % 4 * 16 < 64 := by omega
      simp only [b64encode, b64decode, if_true]
      rw [b64index_b64char_nat _ s1, b64index_b64char_nat _ s2]
      simp only [List.cons.injEq, and_true]
      omega
  | case4 =>
      intro _
      simp [b64encode, b64decode]

/-- `crypto.encrypt_password`: inner AES-ECB under the fixed key
`"macrovideo+*#!^@"` (block function `encI`) after PKCS#7, then outer
AES-ECB under the per-login random key (block function `encO`) after
PKCS#7, then base64. -/
def encrypt_password (encI encO : List Nat → List Nat) (password : List Nat) : List Nat :=
  b64encode (aesEcb encO (pkcs7pad (aesEcb encI (pkcs7pad password))))

/-- C7: decoding the base64, AES-ECB-decrypting under the outer (random)
key, stripping PKCS#7, AES-ECB-decrypting under the inner (fixed) key and
stripping PKCS#7 recovers the password exactly.  `encI`/`decI` and
`encO`/`decO` are the AES block encryption/decryption permutations under
the fixed and random keys respectively. -/
theorem encrypt_password_roundtrip
    (encI decI encO decO : List Nat → List Nat) (p : List Nat)
    (hIinv : ∀ b : List Nat, b.length = 16 → (∀ x ∈ b, x < 256) → decI (encI b) = b)
    (hIgood : ∀ b : List Nat, b.length = 16 → (∀ x ∈ b, x < 256) →
      (encI b).length = 16 ∧ ∀ x ∈ encI b, x < 256)
    (hOinv : ∀ b : List Nat, b.length = 16 → (∀ x ∈ b, x < 256) → decO (encO b) = b)
    (hOgood : ∀ b : List Nat, b.length = 16 → (∀ x ∈ b, x < 256) →
      (encO b).length = 16 ∧ ∀ x ∈ encO b, x < 256)
    (hp : ∀ x ∈ p, x < 256) :
    (pkcs7unpad (aesEcb decO (b64decode (encrypt_password encI encO p)))).bind
      (fun m => pkcs7unpad (aesEcb decI m)) = some p := by
  have hpad1 := pkcs7pad_valid p hp
  have hc1 := aesEcb_valid encI hIgood (pkcs7pad p) hpad1.1 hpad1.2
  have hpad2 := pkcs7pad_valid (aesEcb encI (pkcs7pad p)) hc1.2
  have hc2 := aesEcb_valid encO hOgood (pkcs7pad (aesEcb encI (pkcs7pad p))) hpad2.1 hpad2.2
  unfold encrypt_password
  rw [b64_roundtrip _ hc2.2]
  rw [aesEcb_inv encO decO hOinv hOgood _ hpad2.1 hpad2.2]
  rw [pkcs7unpad_pad (aesEcb encI (pkcs7pad p))]
  rw [Option.some_bind]
  rw [aesEcb_inv encI decI hIinv hIgood _ hpad1.1 hpad1.2]
  exact pkcs7unpad_pad p

/-- Witness for C7 with identity block permutations and password bytes
`[104, 105]`. -/
theorem encrypt_password_roundtrip_witness :
    (∀ x ∈ ([104, 105] : List Nat), x < 256) ∧
    (pkcs7unpad (aesEcb (fun l => l)
        (b64decode (encrypt_password (fun l => l) (fun l => l) [104, 105])))).bind
      (fun m => pkcs7unpad (aesEcb (fun l => l) m)) = some [104, 105] :=
  ⟨by decide,
    encrypt_password_roundtrip (fun l => l) (fun l => l) (fun l => l) (fun l => l)
      [104, 105] (fun _ _ _ => rfl) (fun _ h hb => ⟨h, hb⟩)
      (fun _ _ _ => rfl) (fun _ h hb => ⟨h, hb⟩) (by decide)⟩

/-- Frame-reassembly state of `StreamRecorder`: `_frame_chunks` (the source
dict only ever uses the single key `'current'`, so it is an optional list
of `(fragment_index, payload)` pairs), `_current_frame_start`,
`_current_total` and `_current_is_iframe`. -/
structure DemuxState where
  chunks : Option (List (Nat × List Nat))
  start : Option Nat
  total : Nat
  isIframe : Bool
deriving DecidableEq

/-- State after `StreamRecorder.__init__`. -/
def initState : DemuxState := ⟨none, none, 0, false⟩

/-- Python's stable `list.sort(key=lambda x: x[0])`, as a stable insertion
sort on the fragment index. -/
def sortChunks (chunks : List (Nat × List Nat)) : List (Nat × List Nat) :=
  List.insertionSort (fun a b => a.1 ≤ b.1) chunks

/-- Frame reassembly inside `StreamRecorder._decrypt_frame`: sort collected
fragments by index, concatenate payloads, with the index-0 fragment
contributing `payload[16:]` (metadata stripped) and every other fragment
its full payload. -/
def reassemble (chunks : List (Nat × List Nat)) : List Nat :=
  (sortChunks chunks).foldl (fun acc c => acc ++ (if c.1 = 0 then c.2.drop 16 else c.2)) []

/-- `StreamRecorder._decrypt_frame`: reassemble, then decrypt with the
64/80 pattern when the frame is an I-frame or the reassembled payload is at
least 64 bytes, else pass through. -/
def decrypt_frame (dec : List Nat → List Nat) (chunks : List (Nat × List Nat))
    (isIframe : Bool) : List Nat :=
  if isIframe = true ∨ 64 ≤ (reassemble chunks).length then
    decrypt_64_80 dec (reassemble chunks)
  else reassemble chunks

/-- The video-packet body of `_process_stream_data` (stream.py lines
190-218): on `cur_frame == 0` flush any open frame (emitting it only when
it is complete) and start a new one; otherwise append to the open frame,
emitting and clearing it when it reaches `total` fragments. -/
def videoStep (dec : List Nat → List Nat) (st : DemuxState) (isIframe : Bool)
    (totalFrame curFrame : Nat) (payload : List Nat) (pos : Nat) :
    List Nat × DemuxState :=
  if curFrame = 0 then
    match st.chunks with
    | some l =>
        (if st.start ≠ none ∧ st.total ≤ l.length then decrypt_frame dec l st.isIframe
          else [],
          ⟨some [(curFrame, payload)], some pos, totalFrame, isIframe⟩)
    | none => ([], ⟨some [(curFrame, payload)], some pos, totalFrame, isIframe⟩)
  else
    match st.chunks with
    | some l =>
        if st.total ≤ (l ++ [(curFrame, payload)]).length then
          (decrypt_frame dec (l ++ [(curFrame, payload)]) st.isIframe,
            ⟨none, none, st.total, st.isIframe⟩)
        else ([], ⟨some (l ++ [(curFrame, payload)]), st.start, st.total, st.isIframe⟩)
    | none => ([], st)

/-- The trailing flush of `_process_stream_data` (stream.py lines 251-260):
emit and clear the open frame if it is complete, else keep it. -/
def processFinal (dec : List Nat → List Nat) (st : DemuxState) : List Nat × DemuxState :=
  match st.chunks with
  | some l =>
      if st.start ≠ none ∧ st.total ≤ l.length then
        (decrypt_frame dec l st.isIframe, ⟨none, none, st.total, st.isIframe⟩)
      else ([], st)
  | none => ([], st)

/-- The cursor loop of `_process_stream_data`, returning
`(video, audio, final cursor, state)`.  `fuel` is an upper bound on the
number of iterations; every iteration advances the cursor by at least one
byte, so `data.length` fuel is always sufficient (the wrapper below passes
exactly that).  Branches mirror the source: a video header `7F 28/29`
(break on truncation), an audio header `7F 18` (byte-wise resync on the
sanity gate, skip when audio is not recorded), else advance one byte. -/
def processLoop (dec : List Nat → List Nat) (recordAudio : Bool) (data : List Nat) :
    Nat → Nat → DemuxState → List Nat × List Nat × Nat × DemuxState
  | 0, pos, st => ([], [], pos, st)
  | fuel + 1, pos, st =>
    if pos < data.length then
      if byte data pos = 0x7f ∧ pos + 1 < data.length ∧
          (byte data (pos + 1) = 0x28 ∨ byte data (pos + 1) = 0x29) then
        if data.length < pos + 12 then ([], [], pos, st)
        else if data.length < pos + 12 + u16le data (pos + 7) then ([], [], pos, st)
        else
          let es := videoStep dec st (byte data (pos + 1) == 0x28) (u16le data (pos + 3))
            (u16le data (pos + 5)) (slice data (pos + 12) (pos + 12 + u16le data (pos + 7))) pos
          let r := processLoop dec recordAudio data fuel (pos + 12 + u16le data (pos + 7)) es.2
          (es.1 ++ r.1, r.2.1, r.2.2)
      else if byte data pos = 0x7f ∧ pos + 1 < data.length ∧ byte data (pos + 1) = 0x18 then
        if data.length < pos + 12 then ([], [], pos, st)
        else if 1000 < u16le data (pos + 7) ∨ 10 < u16le data (pos + 3) ∨
            data.length < pos + 12 + u16le data (pos + 7) then
          processLoop dec recordAudio data fuel (pos + 1) st
        else if recordAudio then
          let payload0 := slice data (pos + 12) (pos + 12 + u16le data (pos + 7))
          let payload := if u16le data (pos + 5) = 0 ∧ 16 < payload0.length
            then payload0.drop 16 else payload0
          let r := processLoop dec recordAudio data fuel (pos + 12 + u16le data (pos + 7)) st
          (r.1, decrypt_audio dec payload ++ r.2.1, r.2.2)
        else processLoop dec recordAudio data fuel (pos + 12 + u16le data (pos + 7)) st
      else processLoop dec recordAudio data fuel (pos + 1) st
    else ([], [], pos, st)

/-- `StreamRecorder._process_stream_data`: run the cursor loop from 0, then
the trailing flush; return `(video, audio, unconsumed remainder, state)`. -/
def process_stream_data (dec : List Nat → List Nat) (recordAudio : Bool)
    (st : DemuxState) (data : List Nat) : List Nat × List Nat × List Nat × DemuxState :=
  let r := processLoop dec recordAudio data data.length 0 st
  let f := processFinal dec r.2.2.2
  (r.1 ++ f.1, r.2.1, data.drop r.2.2.1, f.2)

/-- C6: when the cursor reaches a position that looks like the start of a
video packet (`0x7F` then `0x28`/`0x29`) whose 12-byte header or declared
payload extends past the end of the buffer, the parser stops immediately:
it emits nothing further, leaves the reassembly state untouched and
returns the cursor at that very position, so `_process_stream_data` hands
`data[pos:]` back as the unconsumed remainder for the next read. -/
theorem truncated_video_packet_break (dec : List Nat → List Nat) (ra : Bool)
    (data : List Nat) (fuel pos : Nat) (st : DemuxState)
    (hpos : pos < data.length)
    (h7f : byte data pos = 0x7f)
    (hpos1 : pos + 1 < data.length)
    (hkind : byte data (pos + 1) = 0x28 ∨ byte data (pos + 1) = 0x29)
    (htrunc : data.length < pos + 12 ∨ data.length < pos + 12 + u16le data (pos + 7)) :
    processLoop dec ra data (fuel + 1) pos st = ([], [], pos, st) := by
  simp only [processLoop]
  rw [if_pos hpos, if_pos ⟨h7f, hpos1, hkind⟩]
  rcases htrunc with h | h
  · rw [if_pos h]
  · by_cases h12 : data.length < pos + 12
    · rw [if_pos h12]
    · rw [if_neg h12, if_pos h]

/-- Witness for C6: a 10-byte buffer holding only a truncated video header. -/
theorem truncated_video_packet_break_witness :
    (0 : Nat) < ([0x7f, 0x28, 0, 0, 0, 0, 0, 0, 0, 0] : List Nat).length ∧
    byte [0x7f, 0x28, 0, 0, 0, 0, 0, 0, 0, 0] 0 = 0x7f ∧
    (0 : Nat) + 1 < ([0x7f, 0x28, 0, 0, 0, 0, 0, 0, 0, 0] : List Nat).length ∧
    ([0x7f, 0x28, 0, 0, 0, 0, 0, 0, 0, 0] : List Nat).length < 0 + 12 ∧
    processLoop (fun l => l) true [0x7f, 0x28, 0, 0, 0, 0, 0, 0, 0, 0] 1 0 initState =
      ([], [], 0, initState) :=
  ⟨by decide, by decide, by decide, by decide,
    truncated_video_packet_break (fun l => l) true _ 0 0 initState
      (by decide) (by decide) (by decide) (Or.inl (by decide)) (Or.inl (by decide))⟩

/-- C3: a reassembled frame is emitted as `decrypt_64_80` of the payload
exactly when the frame is an I-frame or the payload is at least 64 bytes;
a shorter P-frame payload is emitted unchanged. -/
theorem decrypt_frame_rule (dec : List Nat → List Nat)
    (chunks : List (Nat × List Nat)) (b : Bool) :
    (b = true ∨ 64 ≤ (reassemble chunks).length →
      decrypt_frame dec chunks b = decrypt_64_80 dec (reassemble chunks)) ∧
    (b = false → (reassemble chunks).length < 64 →
      decrypt_frame dec chunks b = reassemble chunks) := by
  constructor
  · intro h
    unfold decrypt_frame
    rw [if_pos h]
  · intro hb hlen
    unfold decrypt_frame
    rw [if_neg]
    subst hb
    simp
    omega

/-- Witness for C3: a one-fragment P-frame whose stripped payload is a
single byte takes the pass-through branch. -/
theorem decrypt_frame_rule_witness :
    (false = false ∧
      (reassemble [(0, List.replicate 16 0 ++ [5])]).length < 64) ∧
    decrypt_frame (fun l => l) [(0, List.replicate 16 0 ++ [5])] false =
      reassemble [(0, List.replicate 16 0 ++ [5])] :=
  ⟨⟨rfl, by decide⟩,
    (decrypt_frame_rule (fun l => l) [(0, List.replicate 16 0 ++ [5])] false).2
      rfl (by decide)⟩

/-- The cursor loop's video output, final cursor and state do not depend
on the `record_audio` flag (only the audio output does). -/
theorem processLoop_record_audio_indep (dec : List Nat → List Nat) (data : List Nat) :
    ∀ (fuel pos : Nat) (st : DemuxState),
      (processLoop dec true data fuel pos st).1 = (processLoop dec false data fuel pos st).1 ∧
      (processLoop dec true data fuel pos st).2.2 =
        (processLoop dec false data fuel pos st).2.2 := by
  intro fuel
  induction fuel with
  | zero => intro pos st; exact ⟨rfl, rfl⟩
  | succ fuel ih =>
      intro pos st
      simp only [processLoop]
      by_cases hpos : pos < data.length
      · simp only [if_pos hpos]
        by_cases hv : byte data pos = 0x7f ∧ pos + 1 < data.length ∧
            (byte data (pos + 1) = 0x28 ∨ byte data (pos + 1) = 0x29)
        · simp only [if_pos hv]
          by_cases h12 : data.length < pos + 12
          · simp only [if_pos h12]; exact ⟨trivial, trivial⟩
          · simp only [if_neg h12]
            by_cases hpe : data.length < pos + 12 + u16le data (pos + 7)
            · simp only [if_pos hpe]; exact ⟨trivial, trivial⟩
            · simp only [if_neg hpe]
              have h := ih (pos + 12 + u16le data (pos + 7))
                (videoStep dec st (byte data (pos + 1) == 0x28) (u16le data (pos + 3))
                  (u16le data (pos + 5))
                  (slice data (pos + 12) (pos + 12 + u16le data (pos + 7))) pos).2
              exact ⟨by rw [h.1], h.2⟩
        · simp only [if_neg hv]
          by_cases ha : byte data pos = 0x7f ∧ pos + 1 < data.length ∧
              byte data (pos + 1) = 0x18
          · simp only [if_pos ha]
            by_cases h12 : data.length < pos + 12
            · simp only [if_pos h12]; exact ⟨trivial, trivial⟩
            · simp only [if_neg h12]
              by_cases hsan : 1000 < u16le data (pos + 7) ∨ 10 < u16le data (pos + 3) ∨
                  data.length < pos + 12 + u16le data (pos + 7)
              · simp only [if_pos hsan]
                exact ih (pos + 1) st
              · simp only [if_neg hsan]
                have h := ih (pos + 12 + u16le data (pos + 7)) st
                exact ⟨h.1, h.2⟩
          · simp only [if_neg ha]
            exact ih (pos + 1) st
      · simp only [if_neg hpos]; exact ⟨trivial, trivial⟩

/-- C10: the video bytes, the video reassembly state after the call and
the unconsumed remainder returned by `_process_stream_data` are identical
whether `record_audio` is true or false; the flag only controls whether
audio bytes are produced (audio packets advance the cursor by the whole
packet either way). -/
theorem process_stream_data_record_audio_indep (dec : List Nat → List Nat)
    (st : DemuxState) (data : List Nat) :
    (process_stream_data dec true st data).1 = (process_stream_data dec false st data).1 ∧
    (process_stream_data dec true st data).2.2.1 =
      (process_stream_data dec false st data).2.2.1 ∧
    (process_stream_data dec true st data).2.2.2 =
      (process_stream_data dec false st data).2.2.2 := by
  have h := processLoop_record_audio_indep dec data data.length 0 st
  have h21 : (processLoop dec true data data.length 0 st).2.2.1 =
      (processLoop dec false data data.length 0 st).2.2.1 := by rw [h.2]
  have h22 : (processLoop dec true data data.length 0 st).2.2.2 =
      (processLoop dec false data data.length 0 st).2.2.2 := by rw [h.2]
  refine ⟨?_, ?_, ?_⟩ <;> simp only [process_stream_data, h.1, h21, h22]

/-- Two permutations of a chunk list with pairwise-distinct fragment
indices sort to the same list. -/
theorem sortChunks_eq_of_perm (l l2 : List (Nat × List Nat))
    (hnodup : (l.map Prod.fst).Nodup) (hperm : l2.Perm l) :
    sortChunks l2 = sortChunks l := by
  haveI hTot : IsTotal (Nat × List Nat) (fun a b => a.1 ≤ b.1) :=
    ⟨fun a b => Nat.le_total a.1 b.1⟩
  haveI hTrans : IsTrans (Nat × List Nat) (fun a b => a.1 ≤ b.1) :=
    ⟨fun _ _ _ hab hbc => le_trans hab hbc⟩
  haveI hAnti : IsAntisymm (Nat × List Nat) (fun a b => a.1 < b.1) :=
    ⟨fun _ _ h1 h2 => absurd (lt_trans h1 h2) (lt_irrefl _)⟩
  have hp : (sortChunks l).Perm l := List.perm_insertionSort _ l
  have hp2 : (sortChunks l2).Perm l2 := List.perm_insertionSort _ l2
  have hs : List.Sorted (fun a b : Nat × List Nat => a.1 ≤ b.1) (sortChunks l) :=
    List.sorted_insertionSort _ l
  have hs2 : List.Sorted (fun a b : Nat × List Nat => a.1 ≤ b.1) (sortChunks l2) :=
    List.sorted_insertionSort _ l2
  have hperm' : (sortChunks l2).Perm (sortChunks l) := hp2.trans (hperm.trans hp.symm)
  have hnodup2 : (l2.map Prod.fst).Nodup := ((hperm.map Prod.fst).nodup_iff).mpr hnodup
  have hne : List.Pairwise (fun a b : Nat × List Nat => a.1 ≠ b.1) (sortChunks l) := by
    have := ((hp.map Prod.fst).nodup_iff).mpr hnodup
    exact List.pairwise_map.mp this
  have hne2 : List.Pairwise (fun a b : Nat × List Nat => a.1 ≠ b.1) (sortChunks l2) := by
    have := ((hp2.map Prod.fst).nodup_iff).mpr hnodup2
    exact List.pairwise_map.mp this
  have hlt : List.Pairwise (fun a b : Nat × List Nat => a.1 < b.1) (sortChunks l) :=
    (hs.and hne).imp (fun h => lt_of_le_of_ne h.1 h.2)
  have hlt2 : List.Pairwise (fun a b : Nat × List Nat => a.1 < b.1) (sortChunks l2) :=
    (hs2.and hne2).imp (fun h => lt_of_le_of_ne h.1 h.2)
  exact List.eq_of_perm_of_sorted hperm' hlt2 hlt

/-- C1 (amended): for a frame whose collected fragments carry the distinct
indices `0..n-1`, reassembly and decryption are invariant under any
permutation of the collected fragment list: `_decrypt_frame` sorts by
fragment index before concatenating, the index-0 fragment contributing
`payload[16:]` and every other its full payload.  (Invariance under
arbitrary *delivery* order to the demultiplexer fails; see the
counterexample: a non-zero-index fragment delivered while no frame is open
is discarded.) -/
theorem reassembly_permutation_invariant (dec : List Nat → List Nat) (n : Nat)
    (l l2 : List (Nat × List Nat)) (b : Bool)
    (hidx : (l.map Prod.fst).Perm (List.range n))
    (hperm : l2.Perm l) :
    reassemble l2 = reassemble l ∧ decrypt_frame dec l2 b = decrypt_frame dec l b := by
  have hnodup : (l.map Prod.fst).Nodup := (hidx.nodup_iff).mpr (List.nodup_range n)
  have hsort := sortChunks_eq_of_perm l l2 hnodup hperm
  have hre : reassemble l2 = reassemble l := by
    unfold reassemble
    rw [hsort]
  exact ⟨hre, by unfold decrypt_frame; rw [hre]⟩

/-- Witness for C1 at a two-fragment frame collected in reversed order. -/
theorem reassembly_permutation_invariant_witness :
    (([(0, List.replicate 16 0 ++ [0xAA]), (1, [0xBB])].map Prod.fst).Perm (List.range 2) ∧
      ([(1, [0xBB]), (0, List.replicate 16 0 ++ [0xAA])] : List (Nat × List Nat)).Perm
        [(0, List.replicate 16 0 ++ [0xAA]), (1, [0xBB])]) ∧
    reassemble [(1, [0xBB]), (0, List.replicate 16 0 ++ [0xAA])] =
      reassemble [(0, List.replicate 16 0 ++ [0xAA]), (1, [0xBB])] ∧
    decrypt_frame (fun l => l) [(1, [0xBB]), (0, List.replicate 16 0 ++ [0xAA])] false =
      decrypt_frame (fun l => l) [(0, List.replicate 16 0 ++ [0xAA]), (1, [0xBB])] false :=
  ⟨⟨by decide, by decide⟩,
    reassembly_permutation_invariant (fun l => l) 2
      [(0, List.replicate 16 0 ++ [0xAA]), (1, [0xBB])]
      [(1, [0xBB]), (0, List.replicate 16 0 ++ [0xAA])] false (by decide) (by decide)⟩

/-- Counterexample to C1 as stated: the same two fragments of a P-frame
(indices 0 and 1, `total_fragments = 2`) delivered to the demultiplexer in
the two possible orders.  With fragment 0 first the frame is reassembled
and emitted as `AA BB`; with fragment 1 first that fragment is discarded
(no frame is open) and nothing is emitted, so the outputs differ. -/
theorem delivery_order_counterexample :
    (process_stream_data (fun l => l) true initState
        (([0x7f, 0x29, 0, 2, 0, 0, 0, 17, 0, 0, 0, 0] ++ (List.replicate 16 0 ++ [0xAA])) ++
          ([0x7f, 0x29, 0, 2, 0, 1, 0, 1, 0, 0, 0, 0] ++ [0xBB]))).1 = [0xAA, 0xBB] ∧
    (process_stream_data (fun l => l) true initState
        (([0x7f, 0x29, 0, 2, 0, 1, 0, 1, 0, 0, 0, 0] ++ [0xBB]) ++
          ([0x7f, 0x29, 0, 2, 0, 0, 0, 17, 0, 0, 0, 0] ++ (List.replicate 16 0 ++ [0xAA])))).1 =
      [] := by
  constructor <;> decide

/-- The 12-byte header of an audio packet (`7F 18`, reserved byte,
`total_fragments`, `fragment_index`, `payload_length` as little-endian
u16s, 3 reserved bytes). -/
def audioHdr (total cf L : Nat) : List Nat :=
  [0x7f, 0x18, 0, total % 256, total / 256, cf % 256, cf / 256, L % 256, L / 256, 0, 0, 0]

/-- C5 (amended): for a single well-formed audio packet, the 16-byte
metadata prefix is stripped before decryption exactly when
`fragment_index = 0` and the payload is strictly longer than 16 bytes;
otherwise - including a payload of exactly 16 bytes - the whole payload is
decrypted and contributed to the audio output (the packet is not
dropped). -/
theorem audio_packet_metadata_rule (dec : List Nat → List Nat) (payload : List Nat)
    (total cf : Nat) (htotal : total ≤ 10) (hcf : cf < 65536)
    (hL : payload.length ≤ 1000) :
    process_stream_data dec true initState (audioHdr total cf payload.length ++ payload) =
      ([], decrypt_audio dec
        (if cf = 0 ∧ 16 < payload.length then payload.drop 16 else payload),
        [], initState) := by
  set data := audioHdr total cf payload.length ++ payload with hdata
  have hhdr : (audioHdr total cf payload.length).length = 12 := by simp [audioHdr]
  have hlen : data.length = 12 + payload.length := by
    rw [hdata]; simp [audioHdr]; omega
  have hconses : data = 0x7f :: 0x18 :: 0 :: (total % 256) :: (total / 256) :: (cf % 256) ::
      (cf / 256) :: (payload.length % 256) :: (payload.length / 256) :: 0 :: 0 :: 0 ::
      payload := by
    rw [hdata]; simp [audioHdr]
  have hb0 : byte data 0 = 0x7f := by rw [hconses]; rfl
  have hb1 : byte data 1 = 0x18 := by rw [hconses]; rfl
  have hu3 : u16le data 3 = total := by
    rw [hconses]
    show total % 256 + 256 * (total / 256) = total
    omega
  have hu5 : u16le data 5 = cf := by
    rw [hconses]
    show cf % 256 + 256 * (cf / 256) = cf
    omega
  have hu7 : u16le data 7 = payload.length := by
    rw [hconses]
    show payload.length % 256 + 256 * (payload.length / 256) = payload.length
    omega
  have hslice : slice data 12 (12 + payload.length) = payload := by
    unfold slice
    have h1 : data.take (12 + payload.length) = data := List.take_of_length_le (by omega)
    rw [h1, hdata]
    exact List.drop_left' hhdr
  have hr : processLoop dec true data (11 + payload.length) (12 + payload.length) initState =
      ([], [], 12 + payload.length, initState) := by
    rw [show 11 + payload.length = (10 + payload.length) + 1 by omega]
    simp only [processLoop]
    rw [if_neg (show ¬12 + payload.length < data.length by omega)]
  have hkey : processLoop dec true data data.length 0 initState =
      ([], decrypt_audio dec
        (if cf = 0 ∧ 16 < payload.length then payload.drop 16 else payload),
        12 + payload.length, initState) := by
    rw [show data.length = (11 + payload.length) + 1 by omega]
    simp only [processLoop, Nat.zero_add]
    rw [if_pos (show 0 < data.length by omega)]
    rw [if_neg (show ¬(byte data 0 = 0x7f ∧ 1 < data.length ∧
        (byte data 1 = 0x28 ∨ byte data 1 = 0x29)) by
      intro hcon
      rcases hcon.2.2 with h | h <;> rw [hb1] at h <;> exact absurd h (by decide))]
    rw [if_pos ⟨hb0, by omega, hb1⟩]
    rw [if_neg (show ¬data.length < 12 by omega)]
    rw [if_neg (show ¬(1000 < u16le data 7 ∨ 10 < u16le data 3 ∨
        data.length < 12 + u16le data 7) by
      rw [hu7, hu3]; omega)]
    rw [if_true]
    rw [hu7, hu5, hslice, hr]
    simp
  unfold process_stream_data
  rw [hkey]
  have hfin : processFinal dec initState = ([], initState) := by
    simp [processFinal, initState]
  have hdrop : data.drop (12 + payload.length) = [] := by
    apply List.drop_eq_nil_of_le
    omega
  simp [hfin, hdrop]

/-- Witness for C5 at a 17-byte index-0 payload (stripped branch) with the
identity block function. -/
theorem audio_packet_metadata_rule_witness :
    ((1 : Nat) ≤ 10 ∧ (0 : Nat) < 65536 ∧ (List.replicate 17 2 : List Nat).length ≤ 1000) ∧
    process_stream_data (fun l => l) true initState
        (audioHdr 1 0 (List.replicate 17 2 : List Nat).length ++ List.replicate 17 2) =
      ([], decrypt_audio (fun l => l)
        (if (0 : Nat) = 0 ∧ 16 < (List.replicate 17 2 : List Nat).length
          then (List.replicate 17 2 : List Nat).drop 16 else List.replicate 17 2),
        [], initState) :=
  ⟨⟨by decide, by decide, by decide⟩,
    audio_packet_metadata_rule (fun l => l) (List.replicate 17 2) 1 0
      (by decide) (by decide) (by decide)⟩

/-- Counterexample to C5 as stated: a single audio packet with
`fragment_index = 0` and a payload of exactly 16 bytes is not dropped -
the unstripped 16-byte payload is decrypted as one AES block and all 16
resulting bytes are contributed to the audio output. -/
theorem audio_len16_counterexample :
    ((process_stream_data (fun l => l) true initState
        ([0x7f, 0x18, 0, 1, 0, 0, 0, 16, 0, 0, 0, 0] ++ List.replicate 16 0)).2.1).length = 16 ∧
    (process_stream_data (fun l => l) true initState
        ([0x7f, 0x18, 0, 1, 0, 0, 0, 16, 0, 0, 0, 0] ++ List.replicate 16 0)).2.1 ≠ [] := by
  constructor <;> decide

/-- `RTPPacketizer` counter state `(ssrc, sequence, timestamp)`
(`payload_type` is the constant 96). -/
structure RTPState where
  ssrc : Nat
  sequence : Nat
  timestamp : Nat
deriving DecidableEq

/-- Big-endian u16 (`struct.pack('>H', n)` after masking). -/
def be16 (n : Nat) : List Nat := [n / 256 % 256, n % 256]

/-- Big-endian u32 (`struct.pack('>I', n)` after masking). -/
def be32 (n : Nat) : List Nat :=
  [n / 16777216 % 256, n / 65536 % 256, n / 256 % 256, n % 256]

/-- `RTPPacketizer._make_rtp_packet`: a 12-byte RTP header (version byte
`0x80`; marker bit and payload type 96; sequence, timestamp, ssrc big
endian) followed by the payload; the sequence then advances by one modulo
2^16. -/
def make_rtp_packet (st : RTPState) (payload : List Nat) (marker : Bool) :
    List Nat × RTPState :=
  ([0x80, (if marker then 0x80 else 0) + 96] ++ be16 (st.sequence % 65536) ++
      be32 (st.timestamp % 4294967296) ++ be32 st.ssrc ++ payload,
    ⟨st.ssrc, (st.sequence + 1) % 65536, st.timestamp⟩)

/-- The RTP payload of a produced packet is everything after the 12-byte
header. -/
theorem make_rtp_packet_payload (st : RTPState) (pl : List Nat) (m : Bool) :
    (make_rtp_packet st pl m).1.drop 12 = pl := rfl

/-- The FU fragmentation loop inside `RTPPacketizer.packetize_nal`: emit
fragments of at most `1400 - 3` data bytes, each prefixed by the 2-byte FU
indicator and the 1-byte FU header (`0x80 | type` first, `0x40 | type`
last, bare type in between).  `fuel` bounds the iteration count; every
iteration advances `offset` by at least one, so `nal.length` suffices. -/
def fuLoop (nal : List Nat) (fuh1 fuh2 nalType : Nat) (isLast : Bool) :
    Nat → Nat → Bool → RTPState → List (List Nat) × RTPState
  | 0, _, _, st => ([], st)
  | fuel + 1, offset, first, st =>
    if offset < nal.length then
      let chunkSize := min 1397 (nal.length - offset)
      let lastFragment : Bool := decide (nal.length ≤ offset + chunkSize)
      let fuHeader := if first then 0x80 + nalType
        else if lastFragment then 0x40 + nalType else nalType
      let p := make_rtp_packet st
        ([fuh1, fuh2, fuHeader] ++ (nal.drop offset).take chunkSize)
        (isLast && lastFragment)
      let r := fuLoop nal fuh1 fuh2 nalType isLast fuel (offset + chunkSize) false p.2
      (p.1 :: r.1, r.2)
    else ([], st)

/-- `RTPPacketizer.packetize_nal`: a NAL of at most 1400 bytes becomes a
single RTP packet carrying it verbatim; a longer NAL is split into HEVC FU
(type 49) fragments.  The FU indicator is
`(nal[0] & 0x81) | (49 << 1)` followed by `nal[1]`; the fragmented data
starts at NAL byte 2.  (`x & 0x81` is written arithmetically as
`x % 2 + x / 128 % 2 * 128`, and `| 98` as `+ 98` since the bit sets are
disjoint; `(x >> 1) & 0x3F` is `x / 2 % 64`.) -/
def packetize_nal (st : RTPState) (nal : List Nat) (isLast : Bool) :
    List (List Nat) × RTPState :=
  if nal.length ≤ 1400 then
    ([(make_rtp_packet st nal isLast).1], (make_rtp_packet st nal isLast).2)
  else
    fuLoop nal (byte nal 0 % 2 + byte nal 0 / 128 % 2 * 128 + 98) (byte nal 1)
      (byte nal 0 / 2 % 64) isLast nal.length 2 true st

/-- Modelled from the spec: the FU depacketizer is not part of the
repository; the claim describes it as reconstructing the first two NAL
bytes from the FU indicator's F/layer bits (`& 0x81`) and the FU header's
NAL type (`& 0x3F`, shifted left one bit), then concatenating the
fragment data (everything after the 3 FU prefix bytes of every payload). -/
def depacketize (payloads : List (List Nat)) : List Nat :=
  match payloads with
  | [] => []
  | p :: _ =>
      (byte p 0 % 2 + byte p 0 / 128 % 2 * 128 + byte p 2 % 64 * 2) :: byte p 1 ::
        (payloads.map (fun q => q.drop 3)).flatten

/-- Concatenating the fragment data of all FU packets recovers the NAL
from `offset` on. -/
theorem fuLoop_data (nal : List Nat) (fuh1 fuh2 nalType : Nat) (isLast : Bool) :
    ∀ (fuel offset : Nat) (first : Bool) (st : RTPState),
      nal.length - offset ≤ fuel →
      ((fuLoop nal fuh1 fuh2 nalType isLast fuel offset first st).1.map
        (fun p => (p.drop 12).drop 3)).flatten = nal.drop offset := by
  intro fuel
  induction fuel with
  | zero =>
      intro offset first st h
      simp only [fuLoop, List.map_nil, List.flatten_nil]
      exact (List.drop_eq_nil_of_le (by omega)).symm
  | succ fuel ih =>
      intro offset first st h
      simp only [fuLoop]
      by_cases ho : offset < nal.length
      · rw [if_pos ho]
        simp only [List.map_cons, List.flatten_cons]
        have hchunk : ∀ (fh : Nat) (m : Bool) (st2 : RTPState),
            (((make_rtp_packet st2
              ([fuh1, fuh2, fh] ++ (nal.drop offset).take (min 1397 (nal.length - offset)))
              m).1.drop 12).drop 3) =
              (nal.drop offset).take (min 1397 (nal.length - offset)) :=
          fun _ _ _ => rfl
        rw [hchunk]
        rw [ih (offset + min 1397 (nal.length - offset)) false _ (by omega)]
        rw [← List.drop_drop, List.take_append_drop]
      · rw [if_neg ho]
        simp only [List.map_nil, List.flatten_nil]
        exact (List.drop_eq_nil_of_le (by omega)).symm

/-- Every FU packet payload is at most 1400 bytes: 3 FU prefix bytes plus
at most 1397 data bytes. -/
theorem fuLoop_sizes (nal : List Nat) (fuh1 fuh2 nalType : Nat) (isLast : Bool) :
    ∀ (fuel offset : Nat) (first : Bool) (st : RTPState),
      ∀ p ∈ (fuLoop nal fuh1 fuh2 nalType isLast fuel offset first st).1,
        (p.drop 12).length ≤ 1400 ∧ ((p.drop 12).drop 3).length ≤ 1397 := by
  intro fuel
  induction fuel with
  | zero =>
      intro offset first st p hp
      simp [fuLoop] at hp
  | succ fuel ih =>
      intro offset first st p hp
      simp only [fuLoop] at hp
      by_cases ho : offset < nal.length
      · rw [if_pos ho] at hp
        rcases List.mem_cons.mp hp with h | h
        · subst h
          rw [make_rtp_packet_payload]
          constructor
          · simp
          · have : (([fuh1, fuh2, if first = true then 0x80 + nalType
                else if decide (nal.length ≤ offset + min 1397 (nal.length - offset)) = true
                then 0x40 + nalType else nalType] : List Nat) ++
                (nal.drop offset).take (min 1397 (nal.length - offset))).drop 3 =
                (nal.drop offset).take (min 1397 (nal.length - offset)) := rfl
            rw [this]
            simp
        · exact ih _ false _ p h
      · rw [if_neg ho] at hp
        simp at hp

/-- Unfolding of one FU iteration whose `first` flag is set. -/
theorem fuLoop_head (nal : List Nat) (f1 f2 t : Nat) (isLast : Bool) (fuel offset : Nat)
    (st : RTPState) (ho : offset < nal.length) :
    ∃ ps, (fuLoop nal f1 f2 t isLast (fuel + 1) offset true st).1 =
      (make_rtp_packet st ([f1, f2, 0x80 + t] ++
          (nal.drop offset).take (min 1397 (nal.length - offset)))
        (isLast && decide (nal.length ≤ offset + min 1397 (nal.length - offset)))).1 :: ps := by
  simp only [fuLoop]
  rw [if_pos ho]
  exact ⟨_, rfl⟩

/-- C8: RTP packetization of a NAL unit of at most 1 MiB round-trips.  A
NAL of at most 1400 bytes becomes exactly one RTP packet whose payload is
the NAL verbatim; a longer NAL becomes FU packets each carrying at most
1397 data bytes after the 2-byte FU indicator and 1-byte FU header, and
the depacketizer (first two NAL bytes rebuilt from the FU indicator's
F/layer bits and the FU header's NAL type, fragment data concatenated)
rebuilds the NAL exactly. -/
theorem packetize_nal_roundtrip (st : RTPState) (nal : List Nat) (isLast : Bool)
    (hb : ∀ x ∈ nal, x < 256) (hmax : nal.length ≤ 1048576) :
    (nal.length ≤ 1400 →
      (packetize_nal st nal isLast).1 = [(make_rtp_packet st nal isLast).1] ∧
      (packetize_nal st nal isLast).1.map (fun p => p.drop 12) = [nal]) ∧
    (1400 < nal.length →
      (∀ p ∈ (packetize_nal st nal isLast).1,
        (p.drop 12).length ≤ 1400 ∧ ((p.drop 12).drop 3).length ≤ 1397) ∧
      depacketize ((packetize_nal st nal isLast).1.map (fun p => p.drop 12)) = nal) := by
  constructor
  · intro h
    unfold packetize_nal
    rw [if_pos h]
    exact ⟨rfl, by simp [make_rtp_packet_payload]⟩
  · intro h
    unfold packetize_nal
    rw [if_neg (by omega)]
    constructor
    · intro p hp
      exact fuLoop_sizes nal _ _ _ isLast nal.length 2 true st p hp
    · obtain ⟨n0, n1, rest, hnal⟩ : ∃ n0 n1 rest, nal = n0 :: n1 :: rest := by
        rcases nal with _ | ⟨n0, _ | ⟨n1, rest⟩⟩
        · simp at h
        · simp at h
        · exact ⟨n0, n1, rest, rfl⟩
      have hn0 : byte nal 0 = n0 := by rw [hnal]; rfl
      have hn1 : byte nal 1 = n1 := by rw [hnal]; rfl
      have hn0lt : n0 < 256 := hb n0 (by rw [hnal]; simp)
      have hfix : fuLoop nal (byte nal 0 % 2 + byte nal 0 / 128 % 2 * 128 + 98) (byte nal 1)
          (byte nal 0 / 2 % 64) isLast nal.length 2 true st =
          fuLoop nal (byte nal 0 % 2 + byte nal 0 / 128 % 2 * 128 + 98) (byte nal 1)
            (byte nal 0 / 2 % 64) isLast ((nal.length - 1) + 1) 2 true st := by
        congr 1
        omega
      rw [hfix]
      obtain ⟨ps, hps⟩ := fuLoop_head nal
        (byte nal 0 % 2 + byte nal 0 / 128 % 2 * 128 + 98) (byte nal 1)
        (byte nal 0 / 2 % 64) isLast (nal.length - 1) 2 st (by omega)
      have hdata := fuLoop_data nal
        (byte nal 0 % 2 + byte nal 0 / 128 % 2 * 128 + 98) (byte nal 1)
        (byte nal 0 / 2 % 64) isLast ((nal.length - 1) + 1) 2 true st (by omega)
      rw [hps] at hdata ⊢
      simp only [List.map_cons, depacketize, make_rtp_packet_payload]
      have eb0 : ∀ (a b c : Nat) (l : List Nat), byte ([a, b, c] ++ l) 0 = a :=
        fun _ _ _ _ => rfl
      have eb1 : ∀ (a b c : Nat) (l : List Nat), byte ([a, b, c] ++ l) 1 = b :=
        fun _ _ _ _ => rfl
      have eb2 : ∀ (a b c : Nat) (l : List Nat), byte ([a, b, c] ++ l) 2 = c :=
        fun _ _ _ _ => rfl
      rw [eb0, eb1, eb2]
      simp only [List.map_map, Function.comp_def]
      simp only [List.map_cons, make_rtp_packet_payload] at hdata
      rw [hdata]
      have hdrop2 : nal.drop 2 = rest := by rw [hnal]; rfl
      rw [hn0, hn1, hdrop2, hnal]
      congr 1
      omega

/-- Witness for C8: the single-packet branch on the 2-byte NAL `[38, 1]`. -/
theorem packetize_nal_roundtrip_witness :
    (∀ x ∈ ([38, 1] : List Nat), x < 256) ∧
    ([38, 1] : List Nat).length ≤ 1048576 ∧
    (([38, 1] : List Nat).length ≤ 1400 →
      (packetize_nal ⟨0, 0, 0⟩ [38, 1] true).1 = [(make_rtp_packet ⟨0, 0, 0⟩ [38, 1] true).1] ∧
      (packetize_nal ⟨0, 0, 0⟩ [38, 1] true).1.map (fun p => p.drop 12) = [[38, 1]]) :=
  ⟨by decide, by decide,
    (packetize_nal_roundtrip ⟨0, 0, 0⟩ [38, 1] true (by decide) (by decide)).1⟩

end V380
